import Mathlib

/-!
Verification of the WordExamRush learning engine.

The engine lives in `src/src/App.vue` (functions `addWords`, `startLearning`,
`selectNextWord`, `updateWordWeight`, `endLearning`, `restartLearning`) over
the data shapes of `src/types/word.ts`.  This file gives a shallow embedding:

* JavaScript numbers are modelled as exact rationals `ℚ`; the decimal
  literals `0.1`, `1.0` and `2.16` of the source are the corresponding exact
  rationals.
* The reactive state of the component is an explicit `AppState` record and
  every handler is a pure state-transition function.  The source holds the
  current word as a live reference into the pool array; following the
  pool-index reading of that aliasing, `currentWord` is modelled as an
  optional index into `wordList`, and the in-place mutation performed through
  the reference becomes `modifyAt` at that index.
* `Math.random() * totalWeight` is modelled by passing the drawn number `r`
  as an explicit argument to `selectNextWord`.
* The `throw` statements of the import validation become an explicit
  `ValidationError` value; the thrown messages carry the 1-based record
  index, which the error constructors record.
* The result sort `.sort((a, b) => b.unfamiliarity - a.unfamiliarity)` is a
  comparator sort descending by `unfamiliarity`; it is modelled by
  `List.insertionSort` with the relation `resultGE`, which realises the same
  ordering contract (the relative order of ties is unspecified in the
  source).
-/

/-- The three values of `currentView` in App.vue. -/
inductive View where
  | home
  | learning
  | result
deriving DecidableEq

/-- A pool entry (`WordWithWeight` of src/types/word.ts): a raw word plus the
sampling weight, presentation count and accumulated weight (`totalWeight` in
the source, `accumulatedWeight` in the spec). -/
structure WordWithWeight where
  word : String
  part_of_speech : String
  explanation : List String
  weight : ℚ
  occurrences : ℕ
  totalWeight : ℚ
deriving DecidableEq

/-- A per-word result row (`LearningResult` of src/types/word.ts). -/
structure LearningResult where
  word : String
  unfamiliarity : ℚ
  occurrences : ℕ
  totalWeight : ℚ
deriving DecidableEq

/-- The engine-relevant reactive state of App.vue.  `currentWord` is an
optional index into `wordList`, modelling the source's live reference into
the pool array. -/
structure AppState where
  currentView : View
  wordList : List WordWithWeight
  currentWord : Option ℕ
  isCardFlipped : Bool
  learningResults : List LearningResult
deriving DecidableEq

/-- A parsed raw word record as it comes out of `JSON.parse`, before
validation.  `none` in `word` / `part_of_speech` models a missing field
(JavaScript `undefined`); `none` in `explanation` models a field that is
missing or is not an array. -/
structure RawWord where
  word : Option String
  part_of_speech : Option String
  explanation : Option (List String)
deriving DecidableEq

/-- The validation failures thrown by `addWords`.  Each constructor records
the 1-based index of the offending record, exactly the `index + 1` that the
thrown message interpolates; `invalidExplanationItem` also records the
1-based index of the offending explanation string. -/
inductive ValidationError where
  | missingWord (index : ℕ)
  | missingPartOfSpeech (index : ℕ)
  | missingExplanation (index : ℕ)
  | invalidExplanationItem (index : ℕ) (expIndex : ℕ)
deriving DecidableEq

/-- The 1-based record index carried by a validation error. -/
def ValidationError.index : ValidationError → ℕ
  | .missingWord i => i
  | .missingPartOfSpeech i => i
  | .missingExplanation i => i
  | .invalidExplanationItem i _ => i

/-- JavaScript falsiness of an optional string field: `!x` holds when the
field is missing or the string is empty. -/
def strFalsy : Option String → Bool
  | none => true
  | some s => s.isEmpty

/-- The `word.explanation.forEach` loop of `addWords`: report the first empty
explanation string.  `expIndex` is the 1-based index of the head of the
remaining list. -/
def findEmptyExp (index : ℕ) : ℕ → List String → Option ValidationError
  | _, [] => none
  | expIndex, e :: rest =>
    if e.isEmpty then some (.invalidExplanationItem index expIndex)
    else findEmptyExp index (expIndex + 1) rest

/-- The per-record checks of `addWords`, in source order, for the record at
1-based `index`. -/
def validateWord (index : ℕ) (w : RawWord) : Option ValidationError :=
  if strFalsy w.word then some (.missingWord index)
  else if strFalsy w.part_of_speech then some (.missingPartOfSpeech index)
  else
    match w.explanation with
    | none => some (.missingExplanation index)
    | some exps =>
      if exps.isEmpty then some (.missingExplanation index)
      else findEmptyExp index 1 exps

/-- The `parsedWords.forEach` validation loop of `addWords`: first failure
wins.  `index` is the 1-based index of the head of the remaining list. -/
def validateWords (index : ℕ) : List RawWord → Option ValidationError
  | [] => none
  | w :: rest =>
    match validateWord index w with
    | some e => some e
    | none => validateWords (index + 1) rest

/-- Conversion of a validated record to a pool entry, as in the map at the
end of `addWords`: spread the record and set `weight = 1.0`,
`occurrences = 0`, `totalWeight = 0`. -/
def toEntry (w : RawWord) : WordWithWeight :=
  { word := w.word.getD "", part_of_speech := w.part_of_speech.getD "",
    explanation := w.explanation.getD [],
    weight := 1.0, occurrences := 0, totalWeight := 0 }

/-- The import operation `addWords` on the pool: validate the whole batch
first; on failure the pool is returned untouched together with the error (in
the source the `throw` happens before any mutation of `wordList`), on
success the converted entries are appended. -/
def addWords (pool : List WordWithWeight) (raw : List RawWord) :
    List WordWithWeight × Option ValidationError :=
  match validateWords 1 raw with
  | some e => (pool, some e)
  | none => (pool ++ raw.map toEntry, none)

/-- A raw record that fails at least one of the per-record checks of
`addWords`. -/
def isBadRecord (w : RawWord) : Bool :=
  strFalsy w.word || strFalsy w.part_of_speech ||
    (match w.explanation with
     | none => true
     | some exps => exps.isEmpty || exps.any String.isEmpty)

/-- The eligibility filter of `selectNextWord`:
`wordList.filter((word) => word.weight >= 0.1)`. -/
def eligibleWords (ws : List WordWithWeight) : List WordWithWeight :=
  ws.filter fun w => decide ((0.1 : ℚ) ≤ w.weight)

/-- The eligible entries together with their indices in `wordList`.  The
source's `eligibleWords` array holds references into the pool; the index
component models the reference.  `i` is the pool index of the head of the
remaining list. -/
def eligibleIdxAux (i : ℕ) : List WordWithWeight → List (ℕ × WordWithWeight)
  | [] => []
  | w :: rest =>
    if (0.1 : ℚ) ≤ w.weight then (i, w) :: eligibleIdxAux (i + 1) rest
    else eligibleIdxAux (i + 1) rest

/-- Indexed eligible subset of the pool. -/
def eligibleIdx (ws : List WordWithWeight) : List (ℕ × WordWithWeight) :=
  eligibleIdxAux 0 ws

/-- The total weight of the eligible entries:
`eligibleWords.reduce((sum, word) => sum + word.weight, 0)`. -/
def totalEligWeight (ws : List WordWithWeight) : ℚ :=
  (eligibleIdx ws).foldl (fun sum p => sum + p.2.weight) 0

/-- The cumulative-weight walk of `selectNextWord`: starting from the running
sum `c`, return the pool index of the first entry whose cumulative sum
reaches the drawn number (`random <= cumulativeWeight` in the source), or
`none` when the walk falls off the end. -/
def pickWord (r : ℚ) : ℚ → List (ℕ × WordWithWeight) → Option ℕ
  | _, [] => none
  | c, p :: rest =>
    if r ≤ c + p.2.weight then some p.1 else pickWord r (c + p.2.weight) rest

/-- The map step of `endLearning`: one result row per entry, with
`unfamiliarity = totalWeight / occurrences`. -/
def mkResult (w : WordWithWeight) : LearningResult :=
  { word := w.word, unfamiliarity := w.totalWeight / (w.occurrences : ℚ),
    occurrences := w.occurrences, totalWeight := w.totalWeight }

/-- Descending-order relation used for the result sort: `a` may precede `b`
when `b.unfamiliarity <= a.unfamiliarity`. -/
def resultGE (a b : LearningResult) : Prop :=
  b.unfamiliarity ≤ a.unfamiliarity

instance : DecidableRel resultGE := fun a b =>
  inferInstanceAs (Decidable (b.unfamiliarity ≤ a.unfamiliarity))

instance : IsTotal LearningResult resultGE :=
  ⟨fun a b => le_total b.unfamiliarity a.unfamiliarity⟩

instance : IsTrans LearningResult resultGE :=
  ⟨fun _ _ _ h1 h2 => le_trans h2 h1⟩

/-- The result computation of `endLearning`: keep the entries with
`occurrences > 0`, map each to a `LearningResult`, and sort descending by
`unfamiliarity`. -/
def aggregate (ws : List WordWithWeight) : List LearningResult :=
  List.insertionSort resultGE
    ((ws.filter fun w => decide (0 < w.occurrences)).map mkResult)

/-- The `endLearning` handler: store the aggregated results and switch to
the result view. -/
def endLearning (s : AppState) : AppState :=
  { s with learningResults := aggregate s.wordList, currentView := View.result }

/-- The `selectNextWord` handler.  `r` stands for the drawn number
`Math.random() * totalWeight`.  When no entry is eligible the session ends;
otherwise the cumulative walk picks a word, and if the walk picked nothing
the source falls back to `eligibleWords[0] || null`. -/
def selectNextWord (r : ℚ) (s : AppState) : AppState :=
  if (eligibleIdx s.wordList).length = 0 then endLearning s
  else
    match pickWord r 0 (eligibleIdx s.wordList) with
    | some i => { s with currentWord := some i, isCardFlipped := false }
    | none =>
      { s with currentWord := (eligibleIdx s.wordList).head?.map Prod.fst,
               isCardFlipped := false }

/-- The `startLearning` handler: on an empty pool it returns at once leaving
the state untouched; otherwise it clears the results, switches to the
learning view and selects the first word. -/
def startLearning (r : ℚ) (s : AppState) : AppState :=
  if s.wordList.length = 0 then s
  else
    selectNextWord r
      { s with learningResults := [], currentView := View.learning }

/-- The three self-assessment actions of `updateWordWeight`. -/
inductive Assessment where
  | unknown
  | vague
  | known
deriving DecidableEq

/-- The weight-mutation switch of `updateWordWeight`. -/
def applyAction (a : Assessment) (w : ℚ) : ℚ :=
  match a with
  | .unknown => w * 2.16
  | .vague => w
  | .known => w / 2.16

/-- The whole per-entry effect of one assessment in `updateWordWeight`:
mutate the weight, then `occurrences += 1` and add the post-mutation weight
to `totalWeight`. -/
def updateEntry (a : Assessment) (w : WordWithWeight) : WordWithWeight :=
  let nw := applyAction a w.weight
  { w with weight := nw, occurrences := w.occurrences + 1,
           totalWeight := w.totalWeight + nw }

/-- In-place update of the pool entry at one index: this is what mutating
the entry through the `currentWord` reference does to the pool. -/
def modifyAt (f : WordWithWeight → WordWithWeight) :
    ℕ → List WordWithWeight → List WordWithWeight
  | _, [] => []
  | 0, w :: rest => f w :: rest
  | n + 1, w :: rest => w :: modifyAt f n rest

/-- The `updateWordWeight` handler: a no-op without a current word; otherwise
assess the current entry in place, un-flip the card, and select the next
word (with drawn number `r`). -/
def updateWordWeight (a : Assessment) (r : ℚ) (s : AppState) : AppState :=
  match s.currentWord with
  | none => s
  | some i =>
    selectNextWord r
      { s with wordList := modifyAt (updateEntry a) i s.wordList,
               isCardFlipped := false }

/-- The per-entry reset of `restartLearning`. -/
def resetEntry (w : WordWithWeight) : WordWithWeight :=
  { w with weight := 1.0, occurrences := 0, totalWeight := 0 }

/-- Reset of the whole pool (the `forEach` of `restartLearning`). -/
def resetPool (ws : List WordWithWeight) : List WordWithWeight :=
  ws.map resetEntry

/-- The `restartLearning` handler: reset every entry, clear the results and
start a fresh session. -/
def restartLearning (r : ℚ) (s : AppState) : AppState :=
  startLearning r
    { s with wordList := resetPool s.wordList, learningResults := [] }

/-- The `endLearningEarly` handler, a plain alias of `endLearning`. -/
def endLearningEarly (s : AppState) : AppState :=
  endLearning s

/-- Cumulative weight of the first `k` entries of an indexed eligible list. -/
def cumW (l : List (ℕ × WordWithWeight)) (k : ℕ) : ℚ :=
  ((l.take k).map fun p => p.2.weight).sum

/-- Iterated `known` assessment effect on a bare weight. -/
def knownIter : ℕ → ℚ → ℚ
  | 0, w => w
  | k + 1, w => knownIter k (applyAction Assessment.known w)

/-! ### Concrete fixtures used by witnesses and counterexamples -/

/-- A pool entry with the given word, weight, occurrence count and
accumulated weight. -/
def egEntry (nm : String) (w : ℚ) (occ : ℕ) (tw : ℚ) : WordWithWeight :=
  { word := nm, part_of_speech := "n.", explanation := ["x"],
    weight := w, occurrences := occ, totalWeight := tw }

/-- Pool whose aggregated unfamiliarity values are, in pool order,
0.5 (= 1/2), 2.0 and 1.0. -/
def egPool : List WordWithWeight :=
  [egEntry "a" 1 2 1, egEntry "b" 1 1 2, egEntry "c" 1 2 2]

/-- Two eligible entries of weight 1 each: total weight 2. -/
def cePool : List WordWithWeight := [egEntry "a" 1 0 0, egEntry "b" 1 0 0]

/-- A learning-phase state over `cePool`. -/
def ceState : AppState :=
  { currentView := View.learning, wordList := cePool, currentWord := none,
    isCardFlipped := false, learningResults := [] }

/-- A home state holding a single fresh entry of weight 1. -/
def oneState : AppState :=
  { currentView := View.home, wordList := [egEntry "a" 1 0 0],
    currentWord := none, isCardFlipped := false, learningResults := [] }

/-- A home state with an empty word pool. -/
def emptyState : AppState :=
  { currentView := View.home, wordList := [], currentWord := none,
    isCardFlipped := false, learningResults := [] }

/-- A home state whose single entry has weight 0, hence is ineligible. -/
def staleState : AppState :=
  { currentView := View.home, wordList := [egEntry "a" 0 3 1],
    currentWord := none, isCardFlipped := false, learningResults := [] }

/-- A raw record whose `word` field is the empty string. -/
def badRaw : RawWord := ⟨some "", some "n.", some ["x"]⟩

/-- A well-formed raw record. -/
def goodRaw : RawWord := ⟨some "apple", some "n.", some ["x"]⟩

/-- A batch of two identical well-formed records (duplicates). -/
def rawPair : List RawWord := [goodRaw, goodRaw]

/-! ### Helper lemmas -/

theorem eligibleIdxAux_map_snd (ws : List WordWithWeight) :
    ∀ i, (eligibleIdxAux i ws).map Prod.snd
      = ws.filter fun w => decide ((0.1 : ℚ) ≤ w.weight) := by
  induction ws with
  | nil => intro i; rfl
  | cons w rest ih =>
    intro i
    by_cases h : (0.1 : ℚ) ≤ w.weight
    · simp [eligibleIdxAux, h, List.filter_cons, ih]
    · simp [eligibleIdxAux, h, List.filter_cons, ih]

theorem eligibleIdx_map_snd (ws : List WordWithWeight) :
    (eligibleIdx ws).map Prod.snd = eligibleWords ws :=
  eligibleIdxAux_map_snd ws 0

theorem eligibleIdx_eq_nil_iff (ws : List WordWithWeight) :
    eligibleIdx ws = [] ↔ ∀ w ∈ ws, w.weight < 0.1 := by
  constructor
  · intro h w hw
    have hmap : (eligibleIdx ws).map Prod.snd = [] := by rw [h]; rfl
    rw [eligibleIdx_map_snd, eligibleWords, List.filter_eq_nil_iff] at hmap
    have := hmap w hw
    simpa [not_le] using this
  · intro h
    have hmap : (eligibleIdx ws).map Prod.snd = [] := by
      rw [eligibleIdx_map_snd, eligibleWords, List.filter_eq_nil_iff]
      intro w hw
      simpa [not_le] using h w hw
    exact List.map_eq_nil_iff.mp hmap

theorem cumW_nil (k : ℕ) : cumW [] k = 0 := by
  simp [cumW]

theorem cumW_zero (l : List (ℕ × WordWithWeight)) : cumW l 0 = 0 := by
  simp [cumW]

theorem cumW_succ (p : ℕ × WordWithWeight) (l : List (ℕ × WordWithWeight))
    (k : ℕ) : cumW (p :: l) (k + 1) = p.2.weight + cumW l k := by
  simp [cumW]

theorem foldl_add_weight (l : List (ℕ × WordWithWeight)) :
    ∀ c : ℚ, l.foldl (fun sum p => sum + p.2.weight) c = c + cumW l l.length := by
  induction l with
  | nil => intro c; simp [cumW]
  | cons p rest ih =>
    intro c
    rw [List.foldl_cons, ih, List.length_cons, cumW_succ]
    ring

theorem totalEligWeight_eq_cumW (ws : List WordWithWeight) :
    totalEligWeight ws
      = cumW (eligibleIdx ws) (eligibleIdx ws).length := by
  simpa using foldl_add_weight (eligibleIdx ws) 0

theorem pickWord_some_spec (l : List (ℕ × WordWithWeight)) :
    ∀ c r : ℚ, l ≠ [] → r ≤ c + cumW l l.length →
      ∃ j p, l.get? j = some p ∧ pickWord r c l = some p.1 ∧
        r ≤ c + cumW l (j + 1) ∧ ∀ k, k < j → c + cumW l (k + 1) < r := by
  induction l with
  | nil => intro c r hne _; exact absurd rfl hne
  | cons p rest ih =>
    intro c r _ hr
    by_cases h : r ≤ c + p.2.weight
    · refine ⟨0, p, rfl, ?_, ?_, ?_⟩
      · simp [pickWord, h]
      · simpa [cumW_succ, cumW_zero] using h
      · intro k hk; exact absurd hk (Nat.not_lt_zero k)
    · push_neg at h
      have hrest : rest ≠ [] := by
        rintro rfl
        rw [List.length_cons, cumW_succ, cumW_nil] at hr
        exact absurd (by linarith : r ≤ c + p.2.weight) (not_le.mpr h)
      have hr' : r ≤ (c + p.2.weight) + cumW rest rest.length := by
        rw [List.length_cons, cumW_succ] at hr
        linarith
      obtain ⟨j, q, hget, hpick, hcum, hlt⟩ := ih (c + p.2.weight) r hrest hr'
      refine ⟨j + 1, q, by simpa using hget, ?_, ?_, ?_⟩
      · simpa [pickWord, not_le.mpr h] using hpick
      · rw [cumW_succ]; linarith
      · intro k hk
        cases k with
        | zero => rw [cumW_succ, cumW_zero]; linarith
        | succ k' =>
          rw [cumW_succ]
          have := hlt k' (by omega)
          linarith

theorem selectNextWord_of_nil {s : AppState} (h : eligibleIdx s.wordList = [])
    (r : ℚ) : selectNextWord r s = endLearning s := by
  unfold selectNextWord
  rw [if_pos (by simp [h])]

theorem selectNextWord_of_some {s : AppState} {r : ℚ} {i : ℕ}
    (hne : eligibleIdx s.wordList ≠ [])
    (hp : pickWord r 0 (eligibleIdx s.wordList) = some i) :
    selectNextWord r s = { s with currentWord := some i, isCardFlipped := false } := by
  unfold selectNextWord
  rw [if_neg (by simpa [List.length_eq_zero] using hne), hp]

theorem selectNextWord_of_none {s : AppState} {r : ℚ}
    (hne : eligibleIdx s.wordList ≠ [])
    (hp : pickWord r 0 (eligibleIdx s.wordList) = none) :
    selectNextWord r s
      = { s with currentWord := (eligibleIdx s.wordList).head?.map Prod.fst,
                 isCardFlipped := false } := by
  unfold selectNextWord
  rw [if_neg (by simpa [List.length_eq_zero] using hne), hp]

theorem selectNextWord_wordList (r : ℚ) (s : AppState) :
    (selectNextWord r s).wordList = s.wordList := by
  unfold selectNextWord endLearning
  split
  · rfl
  · split <;> rfl

theorem selectNextWord_isSome {s : AppState} (r : ℚ)
    (hne : eligibleIdx s.wordList ≠ []) :
    (selectNextWord r s).currentWord.isSome = true := by
  cases hp : pickWord r 0 (eligibleIdx s.wordList) with
  | some i => rw [selectNextWord_of_some hne hp]; rfl
  | none =>
    rw [selectNextWord_of_none hne hp]
    obtain ⟨q, rest, hq⟩ := List.exists_cons_of_ne_nil hne
    simp [hq]

/-! ### Claim theorems -/

/-- Claim C10: selection is read-only on the pool.  For every state and every
drawn number, `selectNextWord` leaves `wordList` unchanged (same entries,
same fields, same order); when some entry is eligible the only fields it
changes are the current word and the card-flip flag, and when no entry is
eligible it performs exactly the transition to the finished phase (result
view together with the aggregated results, per the termination routine). -/
theorem selectNextWord_frame (r : ℚ) (s : AppState) :
    (selectNextWord r s).wordList = s.wordList ∧
    (eligibleIdx s.wordList ≠ [] →
      ∃ c, selectNextWord r s
        = { s with currentWord := c, isCardFlipped := false }) ∧
    (eligibleIdx s.wordList = [] →
      selectNextWord r s
        = { s with currentView := View.result,
                   learningResults := aggregate s.wordList }) := by
  refine ⟨selectNextWord_wordList r s, ?_, ?_⟩
  · intro hne
    cases hp : pickWord r 0 (eligibleIdx s.wordList) with
    | some i => exact ⟨some i, selectNextWord_of_some hne hp⟩
    | none => exact ⟨_, selectNextWord_of_none hne hp⟩
  · intro h
    rw [selectNextWord_of_nil h r]
    rfl

unseal Rat.mul Rat.inv Rat.add Rat.sub Rat.ofScientific in
/-- Witness for C10 at a concrete state: the eligible list of `ceState` is
non-empty and selection only rewrites the current word and the flip flag. -/
theorem selectNextWord_frame_witness :
    eligibleIdx ceState.wordList ≠ [] ∧
    ∃ c, selectNextWord 1 ceState
      = { ceState with currentWord := c, isCardFlipped := false } :=
  ⟨by decide, (selectNextWord_frame 1 ceState).2.1 (by decide)⟩

/-- Claim C1, amended: with the drawn number `r` in `[0, total)`, the walk
selects the first eligible entry (in pool order) whose cumulative weight sum
is `>= r`; whenever at least one entry is eligible the current word is set;
and if the walk selects no entry the source falls back to the FIRST eligible
entry (`eligibleWords[0]`), not the last. -/
theorem selectNextWord_selection (s : AppState) (r : ℚ)
    (hne : eligibleIdx s.wordList ≠ []) :
    (selectNextWord r s).currentWord.isSome = true ∧
    (0 ≤ r → r < totalEligWeight s.wordList →
      ∃ j p, (eligibleIdx s.wordList).get? j = some p ∧
        (selectNextWord r s).currentWord = some p.1 ∧
        r ≤ cumW (eligibleIdx s.wordList) (j + 1) ∧
        ∀ k, k < j → cumW (eligibleIdx s.wordList) (k + 1) < r) ∧
    (pickWord r 0 (eligibleIdx s.wordList) = none →
      (selectNextWord r s).currentWord
        = (eligibleIdx s.wordList).head?.map Prod.fst) := by
  refine ⟨selectNextWord_isSome r hne, ?_, ?_⟩
  · intro _ hlt
    have htot : r ≤ 0 + cumW (eligibleIdx s.wordList) (eligibleIdx s.wordList).length := by
      rw [totalEligWeight_eq_cumW] at hlt
      linarith
    obtain ⟨j, p, hget, hpick, hcum, hlts⟩ :=
      pickWord_some_spec (eligibleIdx s.wordList) 0 r hne htot
    refine ⟨j, p, hget, ?_, by linarith, fun k hk => by have := hlts k hk; linarith⟩
    rw [selectNextWord_of_some hne hpick]
  · intro hp
    rw [selectNextWord_of_none hne hp]

unseal Rat.mul Rat.inv Rat.add Rat.sub Rat.ofScientific in
/-- Witness for C1 at a concrete state: over two eligible entries of weight 1
and drawn number 1/2, the walk stops at the first entry whose cumulative sum
reaches 1/2. -/
theorem selectNextWord_selection_witness :
    (eligibleIdx ceState.wordList ≠ [] ∧ (0 : ℚ) ≤ 1/2 ∧
      (1/2 : ℚ) < totalEligWeight ceState.wordList) ∧
    (∃ j p, (eligibleIdx ceState.wordList).get? j = some p ∧
      (selectNextWord (1/2) ceState).currentWord = some p.1 ∧
      (1/2 : ℚ) ≤ cumW (eligibleIdx ceState.wordList) (j + 1) ∧
      ∀ k, k < j → cumW (eligibleIdx ceState.wordList) (k + 1) < 1/2) :=
  ⟨⟨by decide, by decide, by decide⟩,
    (selectNextWord_selection ceState (1/2) (by decide)).2.1 (by decide) (by decide)⟩

unseal Rat.mul Rat.inv Rat.add Rat.sub Rat.ofScientific in
/-- Counterexample to C1 as stated: over two eligible entries of weight 1 and
drawn number 3 (modelling a rounding overshoot, so that no entry satisfies
the cumulative condition), the walk selects nothing and the code sets the
current word to the FIRST eligible entry (pool index 0), not the last
eligible entry (pool index 1) as the claim states. -/
theorem selectNextWord_fallback_counterexample :
    pickWord 3 0 (eligibleIdx ceState.wordList) = none ∧
    (eligibleIdx ceState.wordList).getLast?.map Prod.fst = some 1 ∧
    (selectNextWord 3 ceState).currentWord = some 0 ∧
    (selectNextWord 3 ceState).currentWord ≠ some 1 := by
  decide

/-- Claim C6, amended: on an empty word pool `startLearning` returns the
state unchanged (it does not finish the session); on a non-empty pool it
clears the results and enters the learning view, setting a current word
whenever at least one entry is eligible, and finishing immediately when none
is. -/
theorem startLearning_behavior (r : ℚ) (s : AppState) :
    (s.wordList = [] → startLearning r s = s) ∧
    (s.wordList ≠ [] → eligibleIdx s.wordList ≠ [] →
      (startLearning r s).currentWord.isSome = true ∧
      (startLearning r s).currentView = View.learning ∧
      (startLearning r s).learningResults = []) ∧
    (s.wordList ≠ [] → eligibleIdx s.wordList = [] →
      (startLearning r s).currentView = View.result) := by
  refine ⟨?_, ?_, ?_⟩
  · intro h
    unfold startLearning
    rw [if_pos (by simp [h])]
  · intro hne helig
    unfold startLearning
    rw [if_neg (by simpa [List.length_eq_zero] using hne)]
    have helig' : eligibleIdx
        ({ s with learningResults := [],
                  currentView := View.learning } : AppState).wordList ≠ [] := helig
    have h3 : (selectNextWord r
        { s with learningResults := [], currentView := View.learning }).currentView
          = View.learning ∧
        (selectNextWord r
        { s with learningResults := [], currentView := View.learning }).learningResults
          = [] := by
      cases hp : pickWord r 0 (eligibleIdx
          ({ s with learningResults := [],
                    currentView := View.learning } : AppState).wordList) with
      | some i => rw [selectNextWord_of_some helig' hp]; exact ⟨rfl, rfl⟩
      | none => rw [selectNextWord_of_none helig' hp]; exact ⟨rfl, rfl⟩
    exact ⟨selectNextWord_isSome r helig', h3.1, h3.2⟩
  · intro hne helig
    have helig' : eligibleIdx
        ({ s with learningResults := [],
                  currentView := View.learning } : AppState).wordList = [] := helig
    unfold startLearning
    rw [if_neg (by simpa [List.length_eq_zero] using hne),
      selectNextWord_of_nil helig' r]
    rfl

unseal Rat.mul Rat.inv Rat.add Rat.sub Rat.ofScientific in
/-- Witness for C6 at a concrete state: starting on a one-entry fresh pool
sets a current word, enters the learning view and clears the results. -/
theorem startLearning_behavior_witness :
    (oneState.wordList ≠ [] ∧ eligibleIdx oneState.wordList ≠ []) ∧
    ((startLearning 0 oneState).currentWord.isSome = true ∧
      (startLearning 0 oneState).currentView = View.learning ∧
      (startLearning 0 oneState).learningResults = []) :=
  ⟨⟨by decide, by decide⟩,
    (startLearning_behavior 0 oneState).2.1 (by decide) (by decide)⟩

unseal Rat.mul Rat.inv Rat.add Rat.sub Rat.ofScientific in
/-- Counterexample to C6 as stated: on the empty pool `startLearning` is a
no-op staying on the home view, not a transition to the finished/result
phase; and on a non-empty pool whose entries are all ineligible it finishes
without selecting any word. -/
theorem startLearning_empty_counterexample :
    (startLearning 0 emptyState = emptyState ∧
      (startLearning 0 emptyState).currentView = View.home ∧
      View.home ≠ View.result) ∧
    (staleState.wordList ≠ [] ∧
      (startLearning 0 staleState).currentWord = none ∧
      (startLearning 0 staleState).currentView = View.result) := by
  decide

/-- Claim C2: one assessment of an entry with prior weight `w > 0` multiplies
the weight by 2.16 on `unknown` (a strict increase), divides it by 2.16 on
`known` (a strict decrease), leaves it unchanged on `vague`; and regardless
of the action it increments `occurrences` by exactly 1 and adds the
post-mutation weight to `totalWeight`.  Moreover `updateWordWeight` applies
exactly this per-entry update to the pool entry at the current index. -/
theorem updateEntry_assessment (w : WordWithWeight) (a : Assessment)
    (hw : 0 < w.weight) :
    ((updateEntry Assessment.unknown w).weight = w.weight * 2.16 ∧
      w.weight < (updateEntry Assessment.unknown w).weight) ∧
    ((updateEntry Assessment.known w).weight = w.weight / 2.16 ∧
      (updateEntry Assessment.known w).weight < w.weight) ∧
    (updateEntry Assessment.vague w).weight = w.weight ∧
    (updateEntry a w).occurrences = w.occurrences + 1 ∧
    (updateEntry a w).totalWeight = w.totalWeight + (updateEntry a w).weight ∧
    (∀ s r i, s.currentWord = some i →
      (updateWordWeight a r s).wordList
        = modifyAt (updateEntry a) i s.wordList) := by
  refine ⟨⟨rfl, ?_⟩, ⟨rfl, ?_⟩, rfl, rfl, rfl, ?_⟩
  · have h216 : (1 : ℚ) < 2.16 := by norm_num
    show w.weight < w.weight * 2.16
    nlinarith
  · have h216 : (1 : ℚ) < 2.16 := by norm_num
    show w.weight / 2.16 < w.weight
    exact div_lt_self hw h216
  · intro s r i h
    simp only [updateWordWeight, h]
    rw [selectNextWord_wordList]

unseal Rat.mul Rat.inv Rat.add Rat.sub Rat.ofScientific in
/-- Witness for C2 at a concrete entry of weight 1: a `vague` assessment
increments `occurrences` and adds the unchanged weight to `totalWeight`. -/
theorem updateEntry_assessment_witness :
    (0 : ℚ) < (egEntry "a" 1 0 0).weight ∧
    (updateEntry Assessment.vague (egEntry "a" 1 0 0)).occurrences
      = (egEntry "a" 1 0 0).occurrences + 1 ∧
    (updateEntry Assessment.vague (egEntry "a" 1 0 0)).totalWeight
      = (egEntry "a" 1 0 0).totalWeight
        + (updateEntry Assessment.vague (egEntry "a" 1 0 0)).weight :=
  ⟨by decide,
    (updateEntry_assessment (egEntry "a" 1 0 0) Assessment.vague (by decide)).2.2.2.1,
    (updateEntry_assessment (egEntry "a" 1 0 0) Assessment.vague (by decide)).2.2.2.2.1⟩

unseal Rat.mul Rat.inv Rat.add Rat.sub Rat.ofScientific in
/-- Claim C4: an entry is in the eligible subset computed by the selection
routine exactly when it is in the pool with weight `>= 0.1`; an entry of
weight exactly 0.1 is kept, an entry of weight 0.0999 is dropped. -/
theorem eligibility_threshold :
    (∀ ws w, w ∈ eligibleWords ws ↔ w ∈ ws ∧ (0.1 : ℚ) ≤ w.weight) ∧
    (∀ ws, (eligibleIdx ws).map Prod.snd = eligibleWords ws) ∧
    eligibleWords [egEntry "a" 0.1 0 0] = [egEntry "a" 0.1 0 0] ∧
    eligibleWords [egEntry "a" (999/10000) 0 0] = [] := by
  refine ⟨?_, eligibleIdx_map_snd, by decide, by decide⟩
  intro ws w
  simp [eligibleWords, List.mem_filter]

unseal Rat.mul Rat.inv Rat.add Rat.sub Rat.ofScientific in
/-- Claim C5: three consecutive `known` assessments drive a weight of 1.0
below the 0.1 eligibility threshold; whenever every pool entry has weight
below 0.1 the selection routine transitions to the result (finished) view;
and concretely, a session started on a single fresh entry reaches the result
view after exactly three `known` assessments. -/
theorem known_termination :
    knownIter 3 1 < 0.1 ∧
    (∀ s r, (∀ w ∈ s.wordList, w.weight < 0.1) →
      (selectNextWord r s).currentView = View.result) ∧
    (updateWordWeight Assessment.known 0 (updateWordWeight Assessment.known 0
      (updateWordWeight Assessment.known 0
        (startLearning 0 oneState)))).currentView = View.result := by
  refine ⟨by decide, ?_, by decide⟩
  intro s r h
  rw [selectNextWord_of_nil ((eligibleIdx_eq_nil_iff s.wordList).mpr h) r]
  rfl

unseal Rat.mul Rat.inv Rat.add Rat.sub Rat.ofScientific in
/-- Witness for C5 at a concrete state whose single entry has weight 0:
selection immediately finishes. -/
theorem known_termination_witness :
    (egEntry "a" 0 3 1).weight < 0.1 ∧
    (selectNextWord 0 staleState).currentView = View.result :=
  ⟨by decide, known_termination.2.1 staleState 0 (by decide)⟩

theorem findEmptyExp_isSome (index : ℕ) (exps : List String) :
    ∀ start, (findEmptyExp index start exps).isSome
      = exps.any String.isEmpty := by
  induction exps with
  | nil => intro start; rfl
  | cons e rest ih =>
    intro start
    by_cases h : e.isEmpty = true
    · simp [findEmptyExp, h]
    · simp [findEmptyExp, h, ih (start + 1)]

theorem validateWord_isSome (index : ℕ) (w : RawWord) :
    (validateWord index w).isSome = isBadRecord w := by
  unfold validateWord isBadRecord
  by_cases h1 : strFalsy w.word = true
  · simp [h1]
  · by_cases h2 : strFalsy w.part_of_speech = true
    · simp [h1, h2]
    · cases hx : w.explanation with
      | none => simp [h1, h2]
      | some exps =>
        by_cases h3 : exps.isEmpty = true
        · simp [h1, h2, h3]
        · simp [h1, h2, h3, findEmptyExp_isSome]

theorem validateWords_isSome (raw : List RawWord) :
    ∀ index, (validateWords index raw).isSome = raw.any isBadRecord := by
  induction raw with
  | nil => intro i; rfl
  | cons w rest ih =>
    intro i
    unfold validateWords
    cases hv : validateWord i w with
    | some e =>
      have hb : isBadRecord w = true := by
        rw [← validateWord_isSome i w, hv]; rfl
      simp [hb]
    | none =>
      have hb : isBadRecord w = false := by
        rw [← validateWord_isSome i w, hv]; rfl
      simp [hb, ih (i + 1)]

theorem findEmptyExp_index (index : ℕ) (exps : List String) :
    ∀ start e, findEmptyExp index start exps = some e → e.index = index := by
  induction exps with
  | nil => intro start e h; exact absurd h (by simp [findEmptyExp])
  | cons x rest ih =>
    intro start e h
    unfold findEmptyExp at h
    by_cases hx : x.isEmpty = true
    · rw [if_pos hx] at h
      cases h
      rfl
    · rw [if_neg hx] at h
      exact ih (start + 1) e h

theorem validateWord_index (index : ℕ) (w : RawWord) (e : ValidationError)
    (h : validateWord index w = some e) : e.index = index := by
  unfold validateWord at h
  by_cases h1 : strFalsy w.word = true
  · rw [if_pos h1] at h; cases h; rfl
  · rw [if_neg h1] at h
    by_cases h2 : strFalsy w.part_of_speech = true
    · rw [if_pos h2] at h; cases h; rfl
    · rw [if_neg h2] at h
      cases hx : w.explanation with
      | none => rw [hx] at h; cases h; rfl
      | some exps =>
        simp only [hx] at h
        by_cases h3 : exps.isEmpty = true
        · rw [if_pos h3] at h; cases h; rfl
        · rw [if_neg h3] at h
          exact findEmptyExp_index index exps 1 e h

theorem validateWord_bad (index : ℕ) (w : RawWord) (e : ValidationError)
    (h : validateWord index w = some e) : isBadRecord w = true := by
  rw [← validateWord_isSome index w, h]
  rfl

theorem validateWords_index (raw : List RawWord) :
    ∀ index e, validateWords index raw = some e →
      index ≤ e.index ∧
        ∃ w, raw.get? (e.index - index) = some w ∧ isBadRecord w = true := by
  induction raw with
  | nil => intro i e h; exact absurd h (by simp [validateWords])
  | cons w rest ih =>
    intro i e h
    unfold validateWords at h
    cases hv : validateWord i w with
    | some e' =>
      rw [hv] at h
      have he : e' = e := by simpa using h
      subst he
      have hidx := validateWord_index i w e' hv
      have hzero : e'.index - i = 0 := by omega
      exact ⟨by omega, w, by rw [hzero]; rfl, validateWord_bad i w e' hv⟩
    | none =>
      rw [hv] at h
      obtain ⟨hle, w', hget, hbad⟩ := ih (i + 1) e h
      refine ⟨by omega, w', ?_, hbad⟩
      have hsplit : e.index - i = (e.index - (i + 1)) + 1 := by omega
      rw [hsplit]
      simpa using hget

/-- Claim C7: the import validation fails exactly when some record has a
missing/empty word, a missing/empty part of speech, an explanation value
that is not a non-empty array, or an empty explanation string; the reported
error carries the 1-based index of an offending record (an empty word at
the first position reports index 1 and the word field); and on any
validation failure the pool is returned completely untouched. -/
theorem import_validation :
    (∀ raw, (validateWords 1 raw).isSome = raw.any isBadRecord) ∧
    (∀ raw e, validateWords 1 raw = some e →
      1 ≤ e.index ∧
        ∃ w, raw.get? (e.index - 1) = some w ∧ isBadRecord w = true) ∧
    validateWords 1 [badRaw] = some (ValidationError.missingWord 1) ∧
    (∀ pool raw e, (addWords pool raw).2 = some e →
      (addWords pool raw).1 = pool) := by
  refine ⟨fun raw => validateWords_isSome raw 1,
    fun raw e h => validateWords_index raw 1 e h, by decide, ?_⟩
  intro pool raw e h
  unfold addWords at h ⊢
  cases hv : validateWords 1 raw with
  | some e' => rfl
  | none => simp [hv] at h

/-- Witness for C7: the batch holding only the empty-word record fails with
the error naming index 1, and that index points back at the bad record. -/
theorem import_validation_witness :
    validateWords 1 [badRaw] = some (ValidationError.missingWord 1) ∧
    (1 ≤ (ValidationError.missingWord 1).index ∧
      ∃ w, [badRaw].get? ((ValidationError.missingWord 1).index - 1) = some w ∧
        isBadRecord w = true) :=
  ⟨by decide,
    import_validation.2.1 [badRaw] (ValidationError.missingWord 1) (by decide)⟩

/-- Claim C8: on a successful import every record becomes an entry with
weight 1, zero occurrences and zero accumulated weight; the new entries are
appended after the untouched pre-existing pool (every old position reads the
same entry), and duplicates each contribute their own entry, so the length
grows by exactly the batch size. -/
theorem import_success (pool : List WordWithWeight) (raw : List RawWord)
    (h : validateWords 1 raw = none) :
    (addWords pool raw).1 = pool ++ raw.map toEntry ∧
    (∀ w ∈ raw.map toEntry,
      w.weight = 1 ∧ w.occurrences = 0 ∧ w.totalWeight = 0) ∧
    (addWords pool raw).1.length = pool.length + raw.length ∧
    (∀ i, i < pool.length → (addWords pool raw).1.get? i = pool.get? i) := by
  have h1 : (addWords pool raw).1 = pool ++ raw.map toEntry := by
    unfold addWords
    rw [h]
  refine ⟨h1, ?_, ?_, ?_⟩
  · intro w hw
    obtain ⟨x, _, rfl⟩ := List.mem_map.mp hw
    refine ⟨?_, rfl, rfl⟩
    show (1.0 : ℚ) = 1
    norm_num
  · rw [h1]
    simp
  · intro i hi
    rw [h1, List.get?_eq_getElem?, List.get?_eq_getElem?,
      List.getElem?_append, if_pos hi]

/-- Witness for C8: importing two identical well-formed records into the
empty pool appends both converted entries. -/
theorem import_success_witness :
    validateWords 1 rawPair = none ∧
    (addWords [] rawPair).1 = [] ++ rawPair.map toEntry ∧
    (addWords [] rawPair).1.length
      = (List.length ([] : List WordWithWeight)) + rawPair.length :=
  ⟨by decide, (import_success [] rawPair (by decide)).1,
    (import_success [] rawPair (by decide)).2.2.1⟩

/-- Claim C9: resetting the pool gives every entry weight exactly 1, zero
occurrences and zero accumulated weight; aggregating the reset pool with no
further assessment yields the empty result list; and `restartLearning`
indeed leaves the pool in exactly this reset shape. -/
theorem reset_spec (s : AppState) (r : ℚ) :
    (∀ w ∈ resetPool s.wordList,
      w.weight = 1 ∧ w.occurrences = 0 ∧ w.totalWeight = 0) ∧
    aggregate (resetPool s.wordList) = [] ∧
    (restartLearning r s).wordList = resetPool s.wordList := by
  refine ⟨?_, ?_, ?_⟩
  · intro w hw
    obtain ⟨x, _, rfl⟩ := List.mem_map.mp hw
    refine ⟨?_, rfl, rfl⟩
    show (1.0 : ℚ) = 1
    norm_num
  · unfold aggregate
    have hf : (resetPool s.wordList).filter
        (fun w => decide (0 < w.occurrences)) = [] := by
      rw [List.filter_eq_nil_iff]
      intro w hw
      obtain ⟨x, _, rfl⟩ := List.mem_map.mp hw
      simp [resetEntry]
    rw [hf]
    rfl
  · unfold restartLearning startLearning
    split
    · rfl
    · rw [selectNextWord_wordList]

unseal Rat.mul Rat.inv Rat.add Rat.sub Rat.ofScientific in
/-- Witness for C9 at a concrete assessed entry: after the reset its weight
is 1 and its counters are 0. -/
theorem reset_spec_witness :
    resetEntry (egEntry "a" 0 3 1) ∈ resetPool staleState.wordList ∧
    ((resetEntry (egEntry "a" 0 3 1)).weight = 1 ∧
      (resetEntry (egEntry "a" 0 3 1)).occurrences = 0 ∧
      (resetEntry (egEntry "a" 0 3 1)).totalWeight = 0) :=
  ⟨by decide, (reset_spec staleState 0).1 (resetEntry (egEntry "a" 0 3 1)) (by decide)⟩

unseal Rat.mul Rat.inv Rat.add Rat.sub Rat.ofScientific in
/-- Claim C3: the aggregation produces exactly one result row per pool entry
with a positive occurrence count (as a permutation of the map over the
filtered pool — entries never presented contribute nothing), every row's
unfamiliarity is its entry's accumulated weight divided by its occurrence
count, the output is sorted descending by unfamiliarity, and on a pool whose
rows have unfamiliarity values 0.5, 2.0, 1.0 (in pool order) the output
order is 2.0, 1.0, 0.5. -/
theorem aggregate_results :
    (∀ ws, (aggregate ws).Perm
      ((ws.filter fun w => decide (0 < w.occurrences)).map mkResult)) ∧
    (∀ ws res, res ∈ aggregate ws → 0 < res.occurrences ∧
      ∃ w, w ∈ ws ∧ 0 < w.occurrences ∧ res = mkResult w ∧
        res.unfamiliarity = w.totalWeight / (w.occurrences : ℚ)) ∧
    (∀ ws, List.Sorted resultGE (aggregate ws)) ∧
    (aggregate egPool).map LearningResult.unfamiliarity = [2, 1, 1/2] := by
  refine ⟨?_, ?_, ?_, ?_⟩
  · intro ws
    exact List.perm_insertionSort resultGE _
  · intro ws res hres
    have hmem : res ∈ (ws.filter fun w => decide (0 < w.occurrences)).map mkResult :=
      (List.perm_insertionSort resultGE _).mem_iff.mp hres
    obtain ⟨w, hwf, rfl⟩ := List.mem_map.mp hmem
    obtain ⟨hws, hocc⟩ := List.mem_filter.mp hwf
    have hocc' : 0 < w.occurrences := by simpa using hocc
    exact ⟨hocc', w, hws, hocc', rfl, rfl⟩
  · intro ws
    exact List.sorted_insertionSort resultGE _
  · decide

unseal Rat.mul Rat.inv Rat.add Rat.sub Rat.ofScientific in
/-- Witness for C3 at the concrete pool: the row of the entry assessed once
with accumulated weight 2 appears in the output, carries a positive
occurrence count, and its unfamiliarity equals the quotient. -/
theorem aggregate_results_witness :
    mkResult (egEntry "b" 1 1 2) ∈ aggregate egPool ∧
    (0 < (mkResult (egEntry "b" 1 1 2)).occurrences ∧
      ∃ w, w ∈ egPool ∧ 0 < w.occurrences ∧
        mkResult (egEntry "b" 1 1 2) = mkResult w ∧
        (mkResult (egEntry "b" 1 1 2)).unfamiliarity
          = w.totalWeight / (w.occurrences : ℚ)) :=
  ⟨by decide,
    aggregate_results.2.1 egPool (mkResult (egEntry "b" 1 1 2)) (by decide)⟩
